import Mathlib

/-!
Verification of the job-analysis interview app (src/app.py).

Texts are modelled as `List Char`.  Python string primitives used by the app
(`str.lower`, `str.strip`, `str.split(sep)[0]`, `str.find`, `str.rfind`,
slicing, the `in` substring test) are embedded below as executable functions
on `List Char`.  `str.lower`/`str.strip` are embedded at ASCII fidelity
(`Char.toLower` / `Char.isWhitespace`), which covers every character the
app's keyword tables and markers contain.
-/

namespace App

/-- Python `str.lstrip()` (ASCII whitespace). -/
def trimL (l : List Char) : List Char := l.dropWhile Char.isWhitespace

/-- Python `str.rstrip()` (ASCII whitespace). -/
def trimR (l : List Char) : List Char := (l.reverse.dropWhile Char.isWhitespace).reverse

/-- Python `str.strip()` (ASCII whitespace). -/
def strip (l : List Char) : List Char := trimR (trimL l)

/-- Index of the first occurrence of the pattern `m` as a contiguous substring
of `t` (`none` when `m` does not occur).  For nonempty `m` this is Python's
`t.find(m)` restricted to the found case. -/
def firstPos (m : List Char) : List Char → Option Nat
  | [] => if m = [] then some 0 else none
  | c :: cs => if m <+: (c :: cs) then some 0 else (firstPos m cs).map (· + 1)

/-- Python `t.split(m)[0]`: the part of `t` before the first occurrence of `m`
(all of `t` when `m` does not occur). -/
def sB (m : List Char) : List Char → List Char
  | [] => []
  | c :: cs => if m <+: (c :: cs) then [] else c :: sB m cs

/-- Python's substring test `m in t`. -/
def inStr (m t : List Char) : Bool := (firstPos m t).isSome

/-- The leaked-state marker substrings of `call_llm` (src/app.py line 78),
in the order the loop visits them. -/
def markers : List (List Char) :=
  ["COVERAGE".data, "PROGRESS:".data, "INTERNAL".data,
   "exchanges".data, "◐".data, "○".data, "✓".data]

/-- One iteration of the marker loop in `call_llm`:
`if marker in text: text = text.split(marker)[0].strip()`. -/
def stepMarker (t m : List Char) : List Char :=
  if inStr m t then strip (sB m t) else t

/-- The whole marker loop of `call_llm`. -/
def afterMarkers (t : List Char) : List Char := markers.foldl stepMarker t

/-- Index of the last occurrence of the character `c` in `l`, or `none`. -/
def rfindIdxC (c : Char) : List Char → Option Nat
  | [] => none
  | a :: as =>
    match rfindIdxC c as with
    | some j => some (j + 1)
    | none => if a = c then some 0 else none

/-- Index of the first occurrence of the character `c` in `l`, or `none`. -/
def findIdxC (c : Char) : List Char → Option Nat
  | [] => none
  | a :: as => if a = c then some 0 else (findIdxC c as).map (· + 1)

/-- Python `str.find(c)`: first index or `-1`. -/
def findI (c : Char) (l : List Char) : Int :=
  match findIdxC c l with
  | some i => (i : Int)
  | none => -1

/-- Python `str.rfind(c)`: last index or `-1`. -/
def rfindI (c : Char) (l : List Char) : Int :=
  match rfindIdxC c l with
  | some i => (i : Int)
  | none => -1

/-- Python `max(text.rfind('.'), text.rfind('?'), text.rfind('!'))` in
`call_llm`. -/
def lastPunct (t : List Char) : Int :=
  max (max (rfindI '.' t) (rfindI '?' t)) (rfindI '!' t)

/-- The trailing-incomplete-sentence removal of `call_llm` (lines 83-86):
`if text and text[-1] not in '.?!': ... if last_period > 0: text = text[:last_period+1]`. -/
def sentenceTrim (t : List Char) : List Char :=
  match t.getLast? with
  | none => t
  | some c =>
    if c = '.' ∨ c = '?' ∨ c = '!' then t
    else if lastPunct t > 0 then t.take (lastPunct t + 1).toNat else t

/-- The generic fallback question of `call_llm` (line 88). -/
def fallback : List Char := "Could you tell me more about that?".data

/-- The sanitizer: everything `call_llm` does to the generated text on the
non-exception path (src/app.py lines 76-88). -/
def sanitize (t : List Char) : List Char :=
  let t2 := sentenceTrim (afterMarkers t)
  if t2 = [] then fallback else t2

/-- The result of the remote generation call: generated text, or the string
rendering of the raised exception. -/
abbrev GenOutcome := Except (List Char) (List Char)

/-- Embedding of `call_llm` (src/app.py lines 72-90), with the remote call's
outcome passed in as a parameter. -/
def call_llm (outcome : GenOutcome) : List Char :=
  match outcome with
  | Except.ok text => sanitize text
  | Except.error e => "Technical issue: ".data ++ e.take 50

/-- The seven coverage-area keys of `COVERAGE_AREAS` (src/app.py lines 41-49). -/
inductive CovKey where
  | core_responsibilities
  | technical_skills
  | soft_skills
  | knowledge_areas
  | success_factors
  | challenges
  | critical_incidents
deriving DecidableEq

/-- A coverage mapping: each area's `covered` flag. -/
def Cov : Type := CovKey → Bool

/-- The keyword table of `update_coverage` (src/app.py lines 58-66). -/
def checks : List (CovKey × List (List Char)) :=
  [(CovKey.core_responsibilities,
     ["day-to-day".data, "typical".data, "responsibilities".data, "tasks".data, "week".data]),
   (CovKey.technical_skills,
     ["python".data, "sql".data, "tool".data, "software".data, "excel".data, "code".data]),
   (CovKey.soft_skills,
     ["stakeholder".data, "communicate".data, "team".data, "collaborate".data, "meeting".data]),
   (CovKey.knowledge_areas,
     ["know".data, "understand".data, "learn".data, "background".data, "domain".data]),
   (CovKey.success_factors,
     ["great".data, "top performer".data, "best".data, "successful".data, "distinguish".data]),
   (CovKey.challenges,
     ["challenge".data, "difficult".data, "hard".data, "frustrat".data, "problem".data]),
   (CovKey.critical_incidents,
     ["example".data, "recently".data, "once".data, "specific".data, "instance".data])]

/-- Setting one area's flag in a coverage mapping
(`coverage[key]["covered"] = True`). -/
def setCov (c : Cov) (k : CovKey) (b : Bool) : Cov :=
  fun k' => if k' = k then b else c k'

/-- Embedding of `update_coverage` (src/app.py lines 56-70): lower-case the
message, then for each area set its flag when any keyword occurs as a
substring. -/
def update_coverage (msg : List Char) (cov : Cov) : Cov :=
  let m := msg.map Char.toLower
  checks.foldl
    (fun c kw => if kw.2.any (fun w => inStr w m) then setCov c kw.1 true else c) cov

/-- The initial coverage mapping: every flag `False` (src/app.py lines 41-49). -/
def initCoverage : Cov := fun _ => false

/-- Feeding a sequence of user messages to `update_coverage` in order. -/
def updateAll (msgs : List (List Char)) (cov : Cov) : Cov :=
  msgs.foldl (fun c m => update_coverage m c) cov

/-- The left and right brace characters (written via code points so that no
brace appears inside a string literal). -/
def lbrace : Char := Char.ofNat 123

/-- The right brace character. -/
def rbrace : Char := Char.ofNat 125

/-- A JSON value, the shape `json.loads` can return.  Objects keep their
fields in textual order.  Numbers are embedded at integer fidelity only;
no claim involves fractional numbers. -/
inductive JVal where
  | null : JVal
  | bool (b : Bool) : JVal
  | num (n : Int) : JVal
  | str (s : List Char) : JVal
  | arr (elems : List JVal) : JVal
  | obj (fields : List (List Char × JVal)) : JVal

/-- JSON insignificant whitespace. -/
def skipWS (l : List Char) : List Char :=
  l.dropWhile (fun c => c = ' ' ∨ c = '\t' ∨ c = '\n' ∨ c = '\r')

/-- Decoding of a JSON string escape character (`\u` escapes and fractional
number syntax are beyond the embedded subset; no claim exercises them). -/
def escChar (c : Char) : Option Char :=
  if c = '"' then some '"'
  else if c = '\\' then some '\\'
  else if c = '/' then some '/'
  else if c = 'b' then some (Char.ofNat 8)
  else if c = 'f' then some (Char.ofNat 12)
  else if c = 'n' then some '\n'
  else if c = 'r' then some '\r'
  else if c = 't' then some '\t'
  else none

/-- Parsing of a JSON string body after the opening quote; returns the decoded
string and the rest of the input after the closing quote. -/
def pStr : List Char → Option (List Char × List Char)
  | [] => none
  | c :: rest =>
    if c = '"' then some ([], rest)
    else if c = '\\' then
      match rest with
      | [] => none
      | e :: rest2 =>
        match escChar e, pStr rest2 with
        | some d, some (s, r) => some (d :: s, r)
        | _, _ => none
    else if c.toNat < 32 then none
    else match pStr rest with
      | some (s, r) => some (c :: s, r)
      | none => none

/-- Parsing of an unsigned decimal integer. -/
def pDigits (l : List Char) : Option (Nat × List Char) :=
  let ds := l.takeWhile Char.isDigit
  if ds = [] then none
  else some (ds.foldl (fun acc c => 10 * acc + (c.toNat - 48)) 0, l.dropWhile Char.isDigit)

/-- Parsing of a JSON number (integer subset). -/
def pNum (l : List Char) : Option (Int × List Char) :=
  match l with
  | '-' :: rest => (pDigits rest).map (fun p => (-(p.1 : Int), p.2))
  | _ => (pDigits l).map (fun p => ((p.1 : Int), p.2))

mutual

/-- Recursive-descent parser for a JSON value; the input must start with the
value's first character (no leading whitespace).  The fuel argument bounds
recursion depth and is sized generously by the caller. -/
def pVal : Nat → List Char → Option (JVal × List Char)
  | 0, _ => none
  | Nat.succ f, input =>
    match input with
    | [] => none
    | c :: rest =>
      if c = lbrace then
        let r := skipWS rest
        match r with
        | d :: rest2 =>
          if d = rbrace then some (JVal.obj [], rest2)
          else (pMembers f r).map (fun p => (JVal.obj p.1, p.2))
        | [] => none
      else if c = '[' then
        let r := skipWS rest
        match r with
        | ']' :: rest2 => some (JVal.arr [], rest2)
        | _ => (pElems f r).map (fun p => (JVal.arr p.1, p.2))
      else if c = '"' then
        (pStr rest).map (fun p => (JVal.str p.1, p.2))
      else if c = 't' then
        match rest with
        | 'r' :: 'u' :: 'e' :: rest2 => some (JVal.bool true, rest2)
        | _ => none
      else if c = 'f' then
        match rest with
        | 'a' :: 'l' :: 's' :: 'e' :: rest2 => some (JVal.bool false, rest2)
        | _ => none
      else if c = 'n' then
        match rest with
        | 'u' :: 'l' :: 'l' :: rest2 => some (JVal.null, rest2)
        | _ => none
      else if c = '-' ∨ c.isDigit then
        (pNum input).map (fun p => (JVal.num p.1, p.2))
      else none

/-- Parsing of the members of a JSON object after the opening brace (at least
one member; the empty object is handled by `pVal`). -/
def pMembers : Nat → List Char → Option (List (List Char × JVal) × List Char)
  | 0, _ => none
  | Nat.succ f, input =>
    match input with
    | '"' :: rest =>
      match pStr rest with
      | none => none
      | some (key, r1) =>
        match skipWS r1 with
        | ':' :: r2 =>
          match pVal f (skipWS r2) with
          | none => none
          | some (v, r3) =>
            match skipWS r3 with
            | ',' :: r4 =>
              match pMembers f (skipWS r4) with
              | none => none
              | some (fs, r5) => some ((key, v) :: fs, r5)
            | d :: r4 =>
              if d = rbrace then some ([(key, v)], r4) else none
            | [] => none
        | _ => none
    | _ => none

/-- Parsing of the elements of a JSON array after the opening bracket (at
least one element; the empty array is handled by `pVal`). -/
def pElems : Nat → List Char → Option (List JVal × List Char)
  | 0, _ => none
  | Nat.succ f, input =>
    match pVal f input with
    | none => none
    | some (v, r1) =>
      match skipWS r1 with
      | ',' :: r2 =>
        match pElems f (skipWS r2) with
        | none => none
        | some (vs, r3) => some (v :: vs, r3)
      | ']' :: r2 => some ([v], r2)
      | _ => none

end

/-- Embedding of `json.loads`: exactly one JSON value, with surrounding
whitespace allowed and nothing after it. -/
def jsonLoads (t : List Char) : Option JVal :=
  match pVal (t.length + 2) (skipWS t) with
  | some (v, rem) => if skipWS rem = [] then some v else none
  | none => none

/-- The distinguishable outcomes of `generate_synthesis` (src/app.py lines
92-107): a parsed document, the no-JSON error record carrying the raw text,
the JSON-parse-error record, or the call-failure record. -/
inductive SynthResult where
  | ok (doc : JVal) : SynthResult
  | noJson (raw : List Char) : SynthResult
  | parseErr : SynthResult
  | callErr (e : List Char) : SynthResult

/-- Embedding of `generate_synthesis` (src/app.py lines 92-107), with the
remote call's outcome passed in as a parameter.  On generated text it
computes `start = text.find(lbrace)`, `end = text.rfind(rbrace) + 1` and
parses `text[start:end]` when `start >= 0 and end > start`. -/
def generate_synthesis (resp : GenOutcome) : SynthResult :=
  match resp with
  | Except.error e => SynthResult.callErr e
  | Except.ok text =>
    if findI lbrace text ≥ 0 ∧ rfindI rbrace text + 1 > findI lbrace text then
      match jsonLoads ((text.take (rfindI rbrace text + 1).toNat).drop
          (findI lbrace text).toNat) with
      | some v => SynthResult.ok v
      | none => SynthResult.parseErr
    else SynthResult.noJson text

/-- Message roles. -/
inductive Role where
  | user
  | assistant
deriving DecidableEq

/-- A transcript message. -/
structure Msg where
  role : Role
  content : List Char

/-- The session-state fields the interview loop and the finish action touch
(src/app.py lines 123-125). -/
structure SessionState where
  messages : List Msg
  coverage : Cov
  interview_complete : Bool
  ksao_result : Option SynthResult

/-- The exchange count: the number of user-role messages (src/app.py line
155). -/
def exchangeCount (msgs : List Msg) : Nat :=
  (msgs.filter (fun m => m.role == Role.user)).length

/-- Embedding of the Finish Interview action (src/app.py lines 162-169): below
3 exchanges only a warning is shown and the state is untouched; otherwise the
synthesis result is stored and the session is marked complete.  The service
response used by `generate_synthesis` is passed in as a parameter. -/
def finishInterview (resp : GenOutcome) (st : SessionState) : SessionState :=
  if exchangeCount st.messages < 3 then st
  else { st with ksao_result := some (generate_synthesis resp),
                 interview_complete := true }

/-- Embedding of one chat turn (src/app.py lines 210-226): append the user
message, update coverage, call the service, append the sanitized (or
error-substituted) response as the assistant turn. -/
def chatTurn (st : SessionState) (prompt : List Char) (outcome : GenOutcome) :
    SessionState :=
  { st with
    messages := st.messages ++ [⟨Role.user, prompt⟩, ⟨Role.assistant, call_llm outcome⟩],
    coverage := update_coverage prompt st.coverage }

/-- Combination of two optional positions by minimum (`none` = not found). -/
def optMin : Option Nat → Option Nat → Option Nat
  | none, b => b
  | some x, none => some x
  | some x, some y => some (min x y)

/-- Position of the earliest occurrence in `t` of any pattern in `L`. -/
def earliestIn (L : List (List Char)) (t : List Char) : Option Nat :=
  L.foldl (fun acc m => optMin acc (firstPos m t)) none

/-- Position of the earliest occurrence of any leakage marker in `t`. -/
def earliestMarker (t : List Char) : Option Nat := earliestIn markers t

/-- The marker stage as the amended claim C6 describes it: truncate at the
earliest occurrence of any marker, stripping surrounding whitespace when a
marker was removed; leave the text alone when no marker occurs. -/
def markerCut (t : List Char) : List Char :=
  match earliestMarker t with
  | none => t
  | some p => strip (t.take p)

/-- The sanitizer as the amended claim C6 describes it: the marker stage
above, then the same sentence-trimming rule and empty-text fallback as the
code. -/
def sanitizeC6 (t : List Char) : List Char :=
  if sentenceTrim (markerCut t) = [] then fallback
  else sentenceTrim (markerCut t)

/-- Combination of two optional positions by maximum. -/
def optMax : Option Nat → Option Nat → Option Nat
  | none, b => b
  | some x, none => some x
  | some x, some y => some (max x y)

/-- Index of the last sentence-terminal punctuation mark, if any. -/
def lastPunctIdx (t : List Char) : Option Nat :=
  optMax (optMax (rfindIdxC '.' t) (rfindIdxC '?' t)) (rfindIdxC '!' t)

/-- The marker stage as claim C6 literally states it: truncate at the earliest
marker occurrence, with no whitespace stripping. -/
def claimCut (t : List Char) : List Char :=
  match earliestMarker t with
  | none => t
  | some p => t.take p

/-- The sentence stage as claim C6 literally states it: if the text does not
end in terminal punctuation, truncate back to the last terminal punctuation
mark found, wherever it is (the text is left alone when none is found). -/
def claimTrim (t : List Char) : List Char :=
  match t.getLast? with
  | none => t
  | some c =>
    if c = '.' ∨ c = '?' ∨ c = '!' then t
    else match lastPunctIdx t with
      | some j => t.take (j + 1)
      | none => t

/-- The sanitizer as claim C6 literally states it: truncate at the earliest
marker occurrence (no whitespace stripping); then, if the result does not end
in terminal punctuation, truncate back to the last terminal punctuation mark
found; fall back when the result is empty. -/
def sanitizeClaimC6 (t : List Char) : List Char :=
  if claimTrim (claimCut t) = [] then fallback
  else claimTrim (claimCut t)

/-- The keyword set associated with each coverage area, as the spec describes
it (one keyword list per area, matching §4.1 of the spec). -/
def keywordsOf : CovKey → List (List Char)
  | CovKey.core_responsibilities =>
    ["day-to-day".data, "typical".data, "responsibilities".data, "tasks".data, "week".data]
  | CovKey.technical_skills =>
    ["python".data, "sql".data, "tool".data, "software".data, "excel".data, "code".data]
  | CovKey.soft_skills =>
    ["stakeholder".data, "communicate".data, "team".data, "collaborate".data, "meeting".data]
  | CovKey.knowledge_areas =>
    ["know".data, "understand".data, "learn".data, "background".data, "domain".data]
  | CovKey.success_factors =>
    ["great".data, "top performer".data, "best".data, "successful".data, "distinguish".data]
  | CovKey.challenges =>
    ["challenge".data, "difficult".data, "hard".data, "frustrat".data, "problem".data]
  | CovKey.critical_incidents =>
    ["example".data, "recently".data, "once".data, "specific".data, "instance".data]

/-- The area is hit by the message: some keyword of the area occurs in the
lower-cased message (the spec's contract for the Coverage Tracker). -/
def areaHit (k : CovKey) (msg : List Char) : Bool :=
  (keywordsOf k).any (fun w => inStr w (msg.map Char.toLower))

/-- The concrete synthesis response of claim C4. -/
def exTxt : List Char :=
  ("Sure! \x7b\"job_title\":\"X\",\"role_summary\":\"...\", \"knowledge\":[],\"skills\":[],\"abilities\":[],\"other_characteristics\":[],\"key_tasks\":[],\"gaps\":[]\x7d thanks").data

/-- The brace-delimited region embedded in `exTxt`. -/
def exInner : List Char :=
  ("\x7b\"job_title\":\"X\",\"role_summary\":\"...\", \"knowledge\":[],\"skills\":[],\"abilities\":[],\"other_characteristics\":[],\"key_tasks\":[],\"gaps\":[]\x7d").data

/-- The parsed KSAO document embedded in `exTxt`. -/
def exDoc : JVal :=
  JVal.obj
    [("job_title".data, JVal.str "X".data),
     ("role_summary".data, JVal.str "...".data),
     ("knowledge".data, JVal.arr []),
     ("skills".data, JVal.arr []),
     ("abilities".data, JVal.arr []),
     ("other_characteristics".data, JVal.arr []),
     ("key_tasks".data, JVal.arr []),
     ("gaps".data, JVal.arr [])]

/-- Lists whose characters are all whitespace. -/
def allWS (l : List Char) : Prop := ∀ c ∈ l, c.isWhitespace = true

/-- Lists containing no whitespace character. -/
def noWS (l : List Char) : Prop := ∀ c ∈ l, c.isWhitespace = false

/-! ### Basic prefix and infix lemmas -/

theorem takePref {α : Type} (n : Nat) (l : List α) : l.take n <+: l :=
  ⟨l.drop n, List.take_append_drop n l⟩

theorem prefExt {α : Type} {x y : List α} (z : List α) (h : x <+: y) : x <+: y ++ z := by
  rcases h with ⟨t, rfl⟩
  exact ⟨t ++ z, by simp⟩

theorem infOfPref {α : Type} {x y : List α} (h : x <+: y) : x <:+: y := by
  rcases h with ⟨t, rfl⟩
  exact ⟨[], t, by simp⟩

theorem infOfSuff {α : Type} {x y : List α} (h : x <:+ y) : x <:+: y := by
  rcases h with ⟨s, rfl⟩
  exact ⟨s, [], by simp⟩

theorem infExtRight {α : Type} {x y : List α} (z : List α) (h : x <:+: y) :
    x <:+: y ++ z := by
  rcases h with ⟨s, t, rfl⟩
  exact ⟨s, t ++ z, by simp⟩

theorem infDrop {α : Type} {m t : List α} : m <:+: t ↔ ∃ q, m <+: t.drop q := by
  constructor
  · rintro ⟨s, u, rfl⟩
    refine ⟨s.length, ?_⟩
    rw [List.append_assoc, show s.length = s.length + 0 from rfl, List.drop_append]
    exact ⟨u, by simp⟩
  · rintro ⟨q, u, hu⟩
    exact ⟨t.take q, u, by rw [List.append_assoc, hu, List.take_append_drop]⟩

theorem prefOfPrefTake {α : Type} {m l : List α} {n : Nat} (h : m <+: l.take n) :
    m <+: l :=
  List.IsPrefix.trans h (takePref n l)

theorem prefTake {α : Type} {m l : List α} {n : Nat} (h : m <+: l)
    (hn : m.length ≤ n) : m <+: l.take n := by
  rcases h with ⟨t, rfl⟩
  rw [show n = m.length + (n - m.length) from by omega, List.take_append]
  exact ⟨t.take (n - m.length), rfl⟩

theorem headPref {α : Type} {x y : List α} (h : x <+: y) (hx : x ≠ []) :
    x.head? = y.head? := by
  rcases h with ⟨t, rfl⟩
  cases x with
  | nil => exact absurd rfl hx
  | cons c x' => simp

theorem prefCases {α : Type} {m s y : List α} (h : m <+: s ++ y) :
    m <+: s ∨ (s <+: m ∧ m.drop s.length <+: y) := by
  induction s generalizing m with
  | nil => exact Or.inr ⟨List.nil_prefix, by simpa using h⟩
  | cons c cs ih =>
    cases m with
    | nil => exact Or.inl (List.nil_prefix)
    | cons d m' =>
      rw [List.cons_append, List.cons_prefix_cons] at h
      obtain ⟨rfl, h'⟩ := h
      rcases ih h' with h1 | ⟨h2, h3⟩
      · exact Or.inl (List.cons_prefix_cons.mpr ⟨rfl, h1⟩)
      · exact Or.inr ⟨List.cons_prefix_cons.mpr ⟨rfl, h2⟩, by simpa using h3⟩

/-! ### Specification of firstPos, sB and inStr -/

theorem firstPos_occ {m t : List Char} {p : Nat} (h : firstPos m t = some p) :
    m <+: t.drop p := by
  induction t generalizing p with
  | nil =>
    unfold firstPos at h
    by_cases hm : m = [] <;> simp [hm] at h
    simp [hm, ← h]
  | cons c cs ih =>
    unfold firstPos at h
    by_cases hp : m <+: (c :: cs)
    · simp [hp] at h
      simpa [← h] using hp
    · simp [hp, Option.map_eq_some'] at h
      obtain ⟨j, hj, rfl⟩ := h
      simpa using ih hj

theorem firstPos_min {m t : List Char} {p : Nat} (h : firstPos m t = some p) :
    ∀ q < p, ¬ m <+: t.drop q := by
  induction t generalizing p with
  | nil =>
    unfold firstPos at h
    by_cases hm : m = [] <;> simp [hm] at h
    omega
  | cons c cs ih =>
    unfold firstPos at h
    by_cases hp : m <+: (c :: cs)
    · simp [hp] at h
      omega
    · simp [hp, Option.map_eq_some'] at h
      obtain ⟨j, hj, rfl⟩ := h
      intro q hq
      cases q with
      | zero => simpa using hp
      | succ q' =>
        simpa using ih hj q' (by omega)

theorem firstPos_none {m t : List Char} (h : firstPos m t = none) :
    ∀ q, ¬ m <+: t.drop q := by
  induction t with
  | nil =>
    unfold firstPos at h
    by_cases hm : m = [] <;> simp [hm] at h ⊢
  | cons c cs ih =>
    unfold firstPos at h
    by_cases hp : m <+: (c :: cs)
    · simp [hp] at h
    · simp [hp] at h
      intro q
      cases q with
      | zero => simpa using hp
      | succ q' => simpa using ih h q'

theorem firstPos_of_occ {m t : List Char} {q : Nat} (h : m <+: t.drop q) :
    ∃ p, firstPos m t = some p ∧ p ≤ q := by
  induction t generalizing q with
  | nil =>
    simp at h
    exact ⟨0, by simp [firstPos, h], Nat.zero_le q⟩
  | cons c cs ih =>
    by_cases hp : m <+: (c :: cs)
    · exact ⟨0, by simp [firstPos, hp], Nat.zero_le q⟩
    · cases q with
      | zero => exact absurd (by simpa using h) hp
      | succ q' =>
        obtain ⟨p, hp', hle⟩ := ih (by simpa using h)
        exact ⟨p + 1, by simp [firstPos, hp, hp'], by omega⟩

theorem firstPos_le_length {m t : List Char} {p : Nat}
    (h : firstPos m t = some p) : p ≤ t.length := by
  induction t generalizing p with
  | nil =>
    unfold firstPos at h
    by_cases hm : m = [] <;> simp [hm] at h
    omega
  | cons c cs ih =>
    unfold firstPos at h
    by_cases hp : m <+: (c :: cs)
    · simp [hp] at h
      simp [← h]
    · simp [hp, Option.map_eq_some'] at h
      obtain ⟨j, hj, rfl⟩ := h
      have := ih hj
      simp
      omega

theorem sB_eq_take {m t : List Char} {p : Nat} (h : firstPos m t = some p) :
    sB m t = t.take p := by
  induction t generalizing p with
  | nil => simp [sB]
  | cons c cs ih =>
    unfold firstPos at h
    unfold sB
    by_cases hp : m <+: (c :: cs)
    · simp [hp] at h ⊢
      simp [← h]
    · simp [hp, Option.map_eq_some'] at h
      obtain ⟨j, hj, rfl⟩ := h
      simp [hp, ih hj]

theorem sB_eq_self {m t : List Char} (h : firstPos m t = none) : sB m t = t := by
  induction t with
  | nil => simp [sB]
  | cons c cs ih =>
    unfold firstPos at h
    unfold sB
    by_cases hp : m <+: (c :: cs) <;> simp [hp] at h ⊢
    exact ih h

theorem inStr_iff {m t : List Char} : inStr m t = true ↔ m <:+: t := by
  unfold inStr
  rw [Option.isSome_iff_exists]
  constructor
  · rintro ⟨p, hp⟩
    exact infDrop.mpr ⟨p, firstPos_occ hp⟩
  · intro h
    obtain ⟨q, hq⟩ := infDrop.mp h
    obtain ⟨p, hp, -⟩ := firstPos_of_occ hq
    exact ⟨p, hp⟩

theorem inStr_eq_false {m t : List Char} (h : ¬ m <:+: t) : inStr m t = false := by
  rw [← Bool.not_eq_true]
  exact fun hc => h (inStr_iff.mp hc)

theorem sB_pref (m t : List Char) : sB m t <+: t := by
  rcases h : firstPos m t with _ | p
  · rw [sB_eq_self h]
  · rw [sB_eq_take h]
    exact takePref p t

/-! ### Whitespace and strip lemmas -/

theorem dw_ws {w : List Char} (hw : allWS w) (x : List Char) :
    (w ++ x).dropWhile Char.isWhitespace = x.dropWhile Char.isWhitespace := by
  induction w with
  | nil => simp
  | cons c w' ih =>
    have hc : c.isWhitespace = true := hw c (by simp)
    have hw' : allWS w' := fun d hd => hw d (by simp [hd])
    simp [List.dropWhile_cons, hc, ih hw']

theorem dw_ws_nil {w : List Char} (hw : allWS w) :
    w.dropWhile Char.isWhitespace = [] := by
  have := dw_ws hw []
  simpa using this

theorem dw_through {d : Char} (hd : d.isWhitespace = false) (A y : List Char) :
    (A ++ d :: y).dropWhile Char.isWhitespace =
      A.dropWhile Char.isWhitespace ++ d :: y := by
  induction A with
  | nil => simp [List.dropWhile_cons, hd]
  | cons c A' ih =>
    by_cases hc : c.isWhitespace = true
    · simp [List.dropWhile_cons, hc, ih]
    · simp at hc
      simp [List.dropWhile_cons, hc]

theorem allWS_takeWhile (t : List Char) :
    allWS (t.takeWhile Char.isWhitespace) := fun _ hc =>
  List.mem_takeWhile_imp hc

theorem trimL_decomp (t : List Char) :
    t = t.takeWhile Char.isWhitespace ++ trimL t :=
  (List.takeWhile_append_dropWhile Char.isWhitespace t).symm

theorem trimR_decomp (t : List Char) :
    ∃ w, allWS w ∧ t = trimR t ++ w := by
  refine ⟨(t.reverse.takeWhile Char.isWhitespace).reverse, ?_, ?_⟩
  · intro c hc
    exact List.mem_takeWhile_imp (List.mem_reverse.mp hc)
  · unfold trimR
    conv_lhs => rw [← List.reverse_reverse t,
      ← List.takeWhile_append_dropWhile Char.isWhitespace t.reverse]
    rw [List.reverse_append]

theorem strip_decomp (t : List Char) :
    ∃ w₂, allWS w₂ ∧ t = t.takeWhile Char.isWhitespace ++ strip t ++ w₂ := by
  obtain ⟨w₂, hw₂, heq⟩ := trimR_decomp (trimL t)
  refine ⟨w₂, hw₂, ?_⟩
  conv_lhs => rw [trimL_decomp t, heq]
  rw [List.append_assoc]
  rfl

theorem strip_inf (t : List Char) : strip t <:+: t := by
  obtain ⟨w₂, -, heq⟩ := strip_decomp t
  exact ⟨t.takeWhile Char.isWhitespace, w₂, heq.symm⟩

theorem trimL_ws {w : List Char} (hw : allWS w) (x : List Char) :
    trimL (w ++ x) = trimL x := dw_ws hw x

theorem trimR_ws {w : List Char} (hw : allWS w) (y : List Char) :
    trimR (y ++ w) = trimR y := by
  unfold trimR
  rw [List.reverse_append, dw_ws (fun c hc => hw c (List.mem_reverse.mp hc))]

theorem strip_ws_left {w : List Char} (hw : allWS w) (x : List Char) :
    strip (w ++ x) = strip x := by
  unfold strip
  rw [trimL_ws hw]

theorem strip_ws_right {w : List Char} (hw : allWS w) (x : List Char) :
    strip (x ++ w) = strip x := by
  unfold strip
  unfold trimL
  rw [List.dropWhile_append]
  cases hdw : x.dropWhile Char.isWhitespace with
  | nil =>
    simp only [hdw, List.isEmpty_nil, if_true]
    rw [dw_ws_nil hw]
  | cons c y =>
    simp only [hdw, List.isEmpty_cons, if_false, Bool.false_eq_true]
    exact trimR_ws hw (c :: y)

theorem strip_through {mid : List Char} (hne : mid ≠ [])
    (hh : ∀ c, mid.head? = some c → c.isWhitespace = false)
    (hl : ∀ c, mid.getLast? = some c → c.isWhitespace = false)
    (A B : List Char) :
    strip (A ++ mid ++ B) = trimL A ++ mid ++ trimR B := by
  obtain ⟨d, mid', rfl⟩ := List.exists_cons_of_ne_nil hne
  have hd : d.isWhitespace = false := hh d rfl
  unfold strip
  have h1 : trimL (A ++ (d :: mid') ++ B) = trimL A ++ (d :: mid') ++ B := by
    unfold trimL
    rw [List.append_assoc, List.cons_append, dw_through hd]
    simp
  rw [h1]
  obtain ⟨e, rev', hrev⟩ : ∃ e rev', (d :: mid').reverse = e :: rev' :=
    List.exists_cons_of_ne_nil (by simp)
  have he : e.isWhitespace = false := by
    apply hl
    rw [← List.head?_reverse, hrev]
    rfl
  unfold trimR
  rw [show trimL A ++ d :: mid' ++ B = trimL A ++ ((d :: mid') ++ B) from by simp,
    List.reverse_append, List.reverse_append, hrev, List.append_assoc,
    List.cons_append, dw_through he, ← List.cons_append, ← hrev]
  simp [List.reverse_append]

theorem headMemOfPref {m y : List Char} {c : Char} (h : m <+: y)
    (hc : m.head? = some c) : c ∈ y := by
  cases m with
  | nil => simp at hc
  | cons d m' =>
    obtain ⟨rfl⟩ : d = c := by simpa using hc
    rcases h with ⟨t, rfl⟩
    simp

theorem prefUnws {m y w : List Char} (hm : noWS m) (hw : allWS w)
    (h : m <+: y ++ w) : m <+: y := by
  induction m generalizing y with
  | nil => exact List.nil_prefix
  | cons c m' ih =>
    cases y with
    | nil =>
      exfalso
      have hc : c ∈ w := @headMemOfPref (c :: m') w c (by simpa using h) rfl
      have := hw c hc
      have := hm c (by simp)
      simp_all
    | cons d y' =>
      rw [List.cons_append, List.cons_prefix_cons] at h
      obtain ⟨rfl, h'⟩ := h
      exact List.cons_prefix_cons.mpr ⟨rfl, ih (fun e he => hm e (by simp [he])) h'⟩

theorem fpWsNone {m w : List Char} (hm : m ≠ []) (hmw : noWS m) (hw : allWS w) :
    firstPos m w = none := by
  induction w with
  | nil => simp [firstPos, hm]
  | cons c w' ih =>
    unfold firstPos
    have hnp : ¬ m <+: (c :: w') := by
      intro hp
      obtain ⟨d, m', rfl⟩ := List.exists_cons_of_ne_nil hm
      obtain ⟨rfl⟩ : d = c := by simpa using (List.cons_prefix_cons.mp hp).1
      have := hmw c (by simp)
      have := hw c (by simp)
      simp_all
    simp [hnp, ih (fun e he => hw e (by simp [he]))]

theorem firstPos_cons (m : List Char) (c : Char) (cs : List Char) :
    firstPos m (c :: cs) =
      if m <+: (c :: cs) then some 0 else (firstPos m cs).map (· + 1) := rfl

theorem fpWsLeft {m w x : List Char} (hm : m ≠ []) (hmw : noWS m) (hw : allWS w) :
    firstPos m (w ++ x) = (firstPos m x).map (· + w.length) := by
  induction w with
  | nil => simp
  | cons c w' ih =>
    have hw' : allWS w' := fun e he => hw e (by simp [he])
    have hnp : ¬ m <+: (c :: (w' ++ x)) := by
      intro hp
      obtain ⟨d, m', rfl⟩ := List.exists_cons_of_ne_nil hm
      obtain ⟨rfl⟩ : d = c := by simpa using (List.cons_prefix_cons.mp hp).1
      have := hmw c (by simp)
      have := hw c (by simp)
      simp_all
    rw [List.cons_append, firstPos_cons, if_neg hnp, ih hw', Option.map_map]
    cases firstPos m x with
    | none => simp
    | some j =>
      simp only [Option.map_some', Option.some.injEq, Function.comp, List.length_cons]
      omega

theorem fpWsRight {m x w : List Char} (hm : m ≠ []) (hmw : noWS m) (hw : allWS w) :
    firstPos m (x ++ w) = firstPos m x := by
  induction x with
  | nil =>
    rw [List.nil_append, fpWsNone hm hmw hw]
    simp [firstPos, hm]
  | cons c cs ih =>
    have hiff : m <+: (c :: (cs ++ w)) ↔ m <+: (c :: cs) := by
      constructor
      · intro hp
        exact prefUnws hmw hw (by simpa using hp)
      · intro hp
        simpa using prefExt w hp
    rw [List.cons_append, firstPos_cons, firstPos_cons]
    by_cases hp : m <+: (c :: cs)
    · rw [if_pos (hiff.mpr hp), if_pos hp]
    · rw [if_neg (fun hc => hp (hiff.mp hc)), if_neg hp, ih]

theorem fpStrip {m t : List Char} (hm : m ≠ []) (hmw : noWS m) :
    firstPos m t =
      (firstPos m (strip t)).map (· + (t.takeWhile Char.isWhitespace).length) := by
  obtain ⟨w₂, hw₂, heq⟩ := strip_decomp t
  conv_lhs => rw [heq]
  rw [List.append_assoc, fpWsLeft hm hmw (allWS_takeWhile t),
    fpWsRight hm hmw hw₂]

/-! ### The marker loop -/

theorem infRefl {α : Type} (l : List α) : l <:+: l := ⟨[], [], by simp⟩

theorem occInTake {m t : List Char} {p q : Nat} (h : m <+: (t.take p).drop q) :
    m <+: t.drop q := by
  rw [List.drop_take] at h
  exact prefOfPrefTake h

theorem occTakeBound {m t : List Char} {p q : Nat} (hm : m ≠ [])
    (h : m <+: (t.take p).drop q) : q < p := by
  have hlen : m.length ≤ ((t.take p).drop q).length := h.length_le
  rw [List.length_drop, List.length_take] at hlen
  have : 0 < m.length := List.length_pos.mpr hm
  omega

theorem sB_not_in {m t : List Char} (hm : m ≠ []) : ¬ m <:+: sB m t := by
  rcases h : firstPos m t with _ | p
  · rw [sB_eq_self h]
    intro hc
    obtain ⟨q, hq⟩ := infDrop.mp hc
    exact firstPos_none h q hq
  · rw [sB_eq_take h]
    intro hc
    obtain ⟨q, hq⟩ := infDrop.mp hc
    exact firstPos_min h q (occTakeBound hm hq) (occInTake hq)

theorem step_inf (t m : List Char) : stepMarker t m <:+: t := by
  unfold stepMarker
  by_cases hf : inStr m t = true
  · simp only [hf, if_true]
    exact List.IsInfix.trans (strip_inf _) (infOfPref (sB_pref m t))
  · simp only [hf]
    exact infRefl t

theorem step_fired {t m : List Char} (h : inStr m t = true) :
    stepMarker t m = strip (sB m t) := by
  unfold stepMarker
  rw [h]
  simp only [if_true]

theorem fold_inf (L : List (List Char)) (t : List Char) :
    L.foldl stepMarker t <:+: t := by
  induction L generalizing t with
  | nil => exact infRefl t
  | cons m L' ih => exact List.IsInfix.trans (ih (stepMarker t m)) (step_inf t m)

theorem step_no_self {m t : List Char} (hm : m ≠ []) :
    ¬ m <:+: stepMarker t m := by
  unfold stepMarker
  cases hf : inStr m t with
  | true =>
    simp only [if_true]
    intro hc
    exact sB_not_in hm (List.IsInfix.trans hc (strip_inf _))
  | false =>
    simp only [Bool.false_eq_true, if_false]
    intro hc
    simp [inStr_iff.mpr hc] at hf

theorem fold_keeps {m t : List Char} (L : List (List Char)) (h : ¬ m <:+: t) :
    ¬ m <:+: L.foldl stepMarker t :=
  fun hc => h (List.IsInfix.trans hc (fold_inf L t))

theorem fold_no {t : List Char} {L : List (List Char)}
    (hne : ∀ m ∈ L, m ≠ []) :
    ∀ m ∈ L, ¬ m <:+: L.foldl stepMarker t := by
  induction L generalizing t with
  | nil => simp
  | cons m₀ L' ih =>
    intro m hm
    rw [List.foldl_cons]
    rcases List.mem_cons.mp hm with rfl | hm'
    · exact fold_keeps L' (step_no_self (hne m (by simp)))
    · exact ih (fun m' h' => hne m' (by simp [h'])) m hm'

theorem fold_no_fire {t : List Char} {L : List (List Char)}
    (h : ∀ m ∈ L, inStr m t = false) : L.foldl stepMarker t = t := by
  induction L with
  | nil => rfl
  | cons m₀ L' ih =>
    rw [List.foldl_cons]
    have h0 : stepMarker t m₀ = t := by
      unfold stepMarker
      simp [h m₀ (by simp)]
    rw [h0]
    exact ih (fun m hm => h m (by simp [hm]))

theorem sanitize_cases (t : List Char) :
    sanitize t = fallback ∨ sanitize t = sentenceTrim (afterMarkers t) := by
  unfold sanitize
  by_cases h0 : sentenceTrim (afterMarkers t) = []
  · refine Or.inl ?_
    show (if sentenceTrim (afterMarkers t) = [] then fallback
      else sentenceTrim (afterMarkers t)) = fallback
    rw [if_pos h0]
  · refine Or.inr ?_
    show (if sentenceTrim (afterMarkers t) = [] then fallback
      else sentenceTrim (afterMarkers t)) = sentenceTrim (afterMarkers t)
    rw [if_neg h0]

theorem sTrim_pref (t : List Char) : sentenceTrim t <+: t := by
  unfold sentenceTrim
  rcases t.getLast? with _ | c
  · exact ⟨[], by simp⟩
  · by_cases hp : c = '.' ∨ c = '?' ∨ c = '!'
    · simp only [hp, if_true]
      exact ⟨[], by simp⟩
    · simp only [hp, if_false]
      by_cases hl : lastPunct t > 0
      · simp only [hl, if_true]
        exact takePref _ t
      · simp only [hl]
        exact ⟨[], by simp⟩

theorem sanitize_no_marker_aux (t m : List Char) (hm : m ∈ markers) :
    ¬ m <:+: sanitize t := by
  unfold sanitize
  have hne : ∀ m' ∈ markers, m' ≠ [] := by decide
  by_cases h0 : sentenceTrim (afterMarkers t) = []
  · simp only [h0, if_true]
    intro hc
    have hbool : inStr m fallback = true := inStr_iff.mpr hc
    fin_cases hm <;> exact absurd hbool (by decide)
  · simp only [h0, if_false]
    intro hc
    have h1 : m <:+: afterMarkers t :=
      List.IsInfix.trans hc (infOfPref (sTrim_pref _))
    exact fold_no hne m hm h1

/-- Claim C10: the sanitizer's output on the non-exception path contains none
of the seven leakage marker substrings. -/
theorem sanitize_no_marker_in_output (t m : List Char) (hm : m ∈ markers) :
    ¬ m <:+: sanitize t :=
  sanitize_no_marker_aux t m hm

/-- Witness for C10 at a concrete generated text and marker. -/
theorem sanitize_no_marker_in_output_witness :
    ¬ "INTERNAL".data <:+: sanitize "Hello. INTERNAL stuff".data :=
  sanitize_no_marker_in_output _ _ (by simp [markers])

/-- Claim C8: the sanitizer leaves already-sanitized text unchanged: nonempty,
ending in terminal punctuation, containing no marker substring. -/
theorem sanitize_id_on_sanitized (t : List Char) (c : Char)
    (hc : t.getLast? = some c) (hpunct : c = '.' ∨ c = '?' ∨ c = '!')
    (hm : ∀ m ∈ markers, inStr m t = false) : sanitize t = t := by
  have h1 : afterMarkers t = t := fold_no_fire hm
  have h2 : sentenceTrim t = t := by
    unfold sentenceTrim
    rw [hc]
    simp [hpunct]
  have hne : t ≠ [] := by
    intro h
    rw [h] at hc
    simp at hc
  unfold sanitize
  rw [h1, h2, if_neg hne]

/-- Witness for C8 at a concrete already-sanitized text. -/
theorem sanitize_id_on_sanitized_witness :
    sanitize "Tell me more.".data = "Tell me more.".data :=
  sanitize_id_on_sanitized _ '.' (by decide) (by decide) (by decide)

/-! ### Behaviour of sB on decomposed texts -/

theorem sB_nil_marker (x : List Char) : sB [] x = [] := by
  cases x with
  | nil => rfl
  | cons c cs => simp [sB, List.nil_prefix]

theorem infOfPrefSuff {m s p : List Char} (h1 : m <+: s) (h2 : s <:+ p) :
    m <:+: p := by
  rcases h1 with ⟨u, rfl⟩
  rcases h2 with ⟨w, rfl⟩
  exact ⟨w, u, by simp⟩

theorem sB_of_inf {m p : List Char} (rest : List Char) (h : m <:+: p) :
    sB m (p ++ rest) <+: p := by
  induction p with
  | nil =>
    have hm : m = [] := by simpa using h
    rw [hm, List.nil_append, sB_nil_marker]
  | cons c cs ih =>
    rw [List.cons_append]
    unfold sB
    by_cases hp : m <+: (c :: (cs ++ rest))
    · simp [hp, List.nil_prefix]
    · simp only [hp, if_false]
      rcases List.infix_cons_iff.mp h with h1 | h2
      · exact absurd (by simpa using prefExt rest h1) hp
      · exact List.cons_prefix_cons.mpr ⟨rfl, ih h2⟩

theorem sB_cons (m : List Char) (c : Char) (cs : List Char) :
    sB m (c :: cs) = if m <+: (c :: cs) then [] else c :: sB m cs := rfl

theorem sB_append_skip {m p rest : List Char}
    (h : ∀ s, s <:+ p → s ≠ [] → ¬ m <+: (s ++ rest)) :
    sB m (p ++ rest) = p ++ sB m rest := by
  induction p with
  | nil => simp
  | cons c cs ih =>
    have hnp : ¬ m <+: (c :: (cs ++ rest)) := by
      have := h (c :: cs) (List.suffix_refl _) (by simp)
      simpa using this
    have ih' := ih (fun s hs hsne => h s (List.IsSuffix.trans hs ⟨[c], rfl⟩) hsne)
    rw [List.cons_append, sB_cons, if_neg hnp, ih', List.cons_append]

theorem sB_into (m p q : List Char) : sB m (p ++ m ++ q) <+: p := by
  rw [List.append_assoc]
  induction p with
  | nil =>
    cases m with
    | nil => rw [List.nil_append, List.nil_append, sB_nil_marker]
    | cons d m' =>
      rw [List.nil_append, List.cons_append, sB_cons]
      have hp : (d :: m') <+: (d :: (m' ++ q)) :=
        prefExt q (List.prefix_refl (d :: m'))
      simp [hp, List.nil_prefix]
  | cons c p' ih =>
    rw [List.cons_append, sB_cons]
    by_cases hp : m <+: (c :: (p' ++ (m ++ q)))
    · simp [hp, List.nil_prefix]
    · simp only [hp, if_false]
      exact List.cons_prefix_cons.mpr ⟨rfl, ih⟩

/-! ### The marker loop on texts containing a distinguished marker -/

theorem pipe (INT : List Char) (hI : INT ≠ []) (hInws : noWS INT)
    (L : List (List Char))
    (hcond : ∀ m ∈ L, m ≠ [] ∧ (∀ c ∈ INT, m.head? ≠ some c) ∧
      (∀ c ∈ m.drop 1, INT.head? ≠ some c)) :
    ∀ p q : List Char,
      (L.foldl stepMarker (p ++ INT ++ q)) <:+: p ∨
      ∃ p' q', L.foldl stepMarker (p ++ INT ++ q) = p' ++ INT ++ q' ∧ p' <:+: p := by
  obtain ⟨d, INT', hINT⟩ := List.exists_cons_of_ne_nil hI
  induction L with
  | nil =>
    intro p q
    exact Or.inr ⟨p, q, rfl, infRefl p⟩
  | cons m L' ih =>
    intro p q
    obtain ⟨hm, hc2, hc3⟩ := hcond m (by simp)
    have ih' := ih (fun m' h' => hcond m' (by simp [h']))
    rw [List.foldl_cons]
    by_cases hmp : m <:+: p
    · have hfired : inStr m (p ++ INT ++ q) = true := by
        apply inStr_iff.mpr
        rw [List.append_assoc]
        exact infExtRight _ hmp
      have h2 : stepMarker (p ++ INT ++ q) m <:+: p := by
        unfold stepMarker
        simp only [hfired, if_true]
        rw [List.append_assoc]
        exact List.IsInfix.trans (strip_inf _) (infOfPref (sB_of_inf _ hmp))
      exact Or.inl (List.IsInfix.trans (fold_inf L' _) h2)
    · cases hin : inStr m (p ++ INT ++ q) with
      | false =>
        have hstep : stepMarker (p ++ INT ++ q) m = p ++ INT ++ q := by
          unfold stepMarker
          rw [hin]
          simp only [Bool.false_eq_true, if_false]
        rw [hstep]
        exact ih' p q
      | true =>
        have hskip1 : ∀ s, s <:+ p → s ≠ [] → ¬ m <+: (s ++ (INT ++ q)) := by
          intro s hs hsne hpref
          rcases prefCases hpref with h1 | ⟨h2, h3⟩
          · exact hmp (infOfPrefSuff h1 hs)
          · cases hdrop : m.drop s.length with
            | nil =>
              have hlen : m.length ≤ s.length := by
                have := congrArg List.length hdrop
                simp only [List.length_drop, List.length_nil] at this
                omega
              have hseq : s = m := h2.eq_of_length (Nat.le_antisymm h2.length_le hlen)
              subst hseq
              exact hmp (infOfSuff hs)
            | cons e tail =>
              have h3' : (e :: tail) <+: INT ++ q := by
                rw [← hdrop]
                exact h3
              have hh : (e :: tail).head? = (INT ++ q).head? := headPref h3' (by simp)
              have hIq : (INT ++ q).head? = some d := by rw [hINT]; rfl
              have he : e = d := by
                rw [hIq] at hh
                simpa using hh
              have hsne1 : 1 ≤ s.length := by
                cases s with
                | nil => simp at hsne
                | cons a b => simp
              have hdd : m.drop s.length = (m.drop 1).drop (s.length - 1) := by
                rw [List.drop_drop]
                congr 1
                omega
              have hmem0 : e ∈ m.drop s.length := by rw [hdrop]; simp
              have hsuf : m.drop s.length <:+ m.drop 1 := by
                rw [hdd]
                exact List.drop_suffix _ _
              have hmem : e ∈ m.drop 1 := List.IsSuffix.mem hmem0 hsuf
              exact hc3 e hmem (by rw [hINT, he]; rfl)
        have hskip2 : ∀ s, s <:+ INT → s ≠ [] → ¬ m <+: (s ++ q) := by
          intro s hs hsne hpref
          obtain ⟨e, s', rfl⟩ := List.exists_cons_of_ne_nil hsne
          have heI : e ∈ INT := List.IsSuffix.mem (by simp) hs
          rcases prefCases hpref with h1 | ⟨h2, h3⟩
          · have hhd := headPref h1 hm
            exact hc2 e heI (by rw [hhd]; rfl)
          · have hhd := headPref h2 (by simp)
            exact hc2 e heI (by rw [← hhd]; rfl)
        have hsb : sB m (p ++ INT ++ q) = p ++ INT ++ sB m q := by
          calc sB m (p ++ INT ++ q) = sB m (p ++ (INT ++ q)) := by
                rw [List.append_assoc]
            _ = p ++ sB m (INT ++ q) := sB_append_skip hskip1
            _ = p ++ (INT ++ sB m q) := by rw [sB_append_skip hskip2]
            _ = p ++ INT ++ sB m q := by rw [List.append_assoc]
        have hhead : ∀ c, INT.head? = some c → c.isWhitespace = false := by
          intro c hc
          rw [hINT] at hc
          obtain rfl : d = c := by simpa using hc
          exact hInws d (by rw [hINT]; simp)
        have hlast : ∀ c, INT.getLast? = some c → c.isWhitespace = false := by
          intro c hc
          exact hInws c (List.mem_of_mem_getLast? hc)
        have hstep : stepMarker (p ++ INT ++ q) m =
            trimL p ++ INT ++ trimR (sB m q) := by
          unfold stepMarker
          simp only [hin, if_true]
          rw [hsb]
          exact strip_through hI hhead hlast p (sB m q)
        rw [hstep]
        rcases ih' (trimL p) (trimR (sB m q)) with hl | ⟨p', q', heq, hp'⟩
        · exact Or.inl
            (List.IsInfix.trans hl (infOfSuff (List.dropWhile_suffix _)))
        · exact Or.inr
            ⟨p', q', heq,
              List.IsInfix.trans hp' (infOfSuff (List.dropWhile_suffix _))⟩

/-- Claim C2: for any generated text containing the substring "INTERNAL"
(written pre ++ "INTERNAL" ++ post), the sanitizer's output contains no
"INTERNAL", and it is either the generic fallback question or an infix of
`pre` — it never contains the marker or any of the text that followed it. -/
theorem sanitize_removes_internal_and_rest (pre post : List Char) :
    ¬ "INTERNAL".data <:+: sanitize (pre ++ "INTERNAL".data ++ post) ∧
    (sanitize (pre ++ "INTERNAL".data ++ post) = fallback ∨
      sanitize (pre ++ "INTERNAL".data ++ post) <:+: pre) := by
  constructor
  · exact sanitize_no_marker_aux _ _ (by simp [markers])
  · have hI : ("INTERNAL".data : List Char) ≠ [] := by decide
    have hInws : noWS "INTERNAL".data := by unfold noWS; decide
    have hcond : ∀ m ∈ [("COVERAGE".data : List Char), "PROGRESS:".data],
        m ≠ [] ∧ (∀ c ∈ "INTERNAL".data, m.head? ≠ some c) ∧
        (∀ c ∈ m.drop 1, ("INTERNAL".data : List Char).head? ≠ some c) := by
      decide
    have hsplit : afterMarkers (pre ++ "INTERNAL".data ++ post) =
        List.foldl stepMarker
          (stepMarker
            (List.foldl stepMarker (pre ++ "INTERNAL".data ++ post)
              ["COVERAGE".data, "PROGRESS:".data])
            "INTERNAL".data)
          ["exchanges".data, "◐".data, "○".data, "✓".data] := by
      simp only [afterMarkers, markers, List.foldl_cons, List.foldl_nil]
    have hinner : afterMarkers (pre ++ "INTERNAL".data ++ post) <:+: pre := by
      rw [hsplit]
      rcases pipe "INTERNAL".data hI hInws ["COVERAGE".data, "PROGRESS:".data]
          hcond pre post with hl | ⟨p', q', heq, hp'⟩
      · exact List.IsInfix.trans
          (List.IsInfix.trans (fold_inf _ _) (step_inf _ _)) hl
      · have hfired : inStr "INTERNAL".data
            (List.foldl stepMarker (pre ++ "INTERNAL".data ++ post)
              ["COVERAGE".data, "PROGRESS:".data]) = true := by
          apply inStr_iff.mpr
          rw [heq]
          exact ⟨p', q', by simp⟩
        have hstep : stepMarker
            (List.foldl stepMarker (pre ++ "INTERNAL".data ++ post)
              ["COVERAGE".data, "PROGRESS:".data]) "INTERNAL".data =
            strip (sB "INTERNAL".data (p' ++ "INTERNAL".data ++ q')) := by
          rw [step_fired hfired, heq]
        have hmid : stepMarker
            (List.foldl stepMarker (pre ++ "INTERNAL".data ++ post)
              ["COVERAGE".data, "PROGRESS:".data]) "INTERNAL".data <:+: pre := by
          rw [hstep]
          exact List.IsInfix.trans
            (List.IsInfix.trans (strip_inf _) (infOfPref (sB_into _ _ _))) hp'
        exact List.IsInfix.trans (fold_inf _ _) hmid
    rcases sanitize_cases (pre ++ "INTERNAL".data ++ post) with h | h
    · exact Or.inl h
    · rw [h]
      exact Or.inr (List.IsInfix.trans (infOfPref (sTrim_pref _)) hinner)

/-! ### Coverage tracking -/

theorem coverage_foldl_eval (L : List (CovKey × List (List Char)))
    (m : List Char) (cov : Cov) (k : CovKey) :
    (L.foldl
      (fun c kw => if kw.2.any (fun w => inStr w m) then setCov c kw.1 true else c)
      cov) k =
    (cov k || L.any (fun kw => decide (kw.1 = k) && kw.2.any (fun w => inStr w m))) := by
  induction L generalizing cov with
  | nil => simp
  | cons kw L' ih =>
    rw [List.foldl_cons, ih]
    have hstep :
        (if kw.2.any (fun w => inStr w m) then setCov cov kw.1 true else cov) k =
        (cov k || (decide (kw.1 = k) && kw.2.any (fun w => inStr w m))) := by
      cases hh : kw.2.any (fun w => inStr w m) with
      | true =>
        rw [if_pos rfl]
        unfold setCov
        by_cases hk : k = kw.1
        · simp [hk]
        · simp only [if_neg hk]
          have hk' : ¬ kw.1 = k := fun h => hk h.symm
          simp [hk']
      | false =>
        simp only [Bool.false_eq_true, if_false]
        simp
    rw [hstep, List.any_cons, Bool.or_assoc]

theorem update_coverage_eval (msg : List Char) (cov : Cov) (k : CovKey) :
    update_coverage msg cov k =
      (cov k || checks.any (fun kw => decide (kw.1 = k) &&
        kw.2.any (fun w => inStr w (msg.map Char.toLower)))) := by
  unfold update_coverage
  exact coverage_foldl_eval checks (msg.map Char.toLower) cov k

theorem update_coverage_mono {msg : List Char} {cov : Cov} {k : CovKey}
    (h : cov k = true) : update_coverage msg cov k = true := by
  rw [update_coverage_eval, h, Bool.true_or]

theorem updateAll_mono {msgs : List (List Char)} {cov : Cov} {k : CovKey}
    (h : cov k = true) : updateAll msgs cov k = true := by
  induction msgs generalizing cov with
  | nil => exact h
  | cons m msgs' ih =>
    unfold updateAll
    rw [List.foldl_cons]
    exact ih (update_coverage_mono h)

/-- Claim C1: coverage flags are monotonic: a set flag survives one update, and
a flag set after some messages stays set after any further messages;
`update_coverage` never resets a flag from true to false. -/
theorem coverage_flags_monotonic :
    (∀ msg cov k, cov k = true → update_coverage msg cov k = true) ∧
    (∀ msgs₁ msgs₂ cov k, updateAll msgs₁ cov k = true →
      updateAll (msgs₁ ++ msgs₂) cov k = true) := by
  constructor
  · intro msg cov k h
    exact update_coverage_mono h
  · intro msgs₁ msgs₂ cov k h
    unfold updateAll at *
    rw [List.foldl_append]
    exact updateAll_mono h

/-- Witness for C1: a flag set by the first message is still set after a later
message. -/
theorem coverage_flags_monotonic_witness :
    updateAll (["my tasks today".data] ++ ["hello".data]) initCoverage
      CovKey.core_responsibilities = true :=
  coverage_flags_monotonic.2 ["my tasks today".data] ["hello".data] initCoverage
    CovKey.core_responsibilities (by decide)

/-- Claim C7: after `update_coverage` an area is covered exactly when it was
already covered or a keyword of that area occurs in the lower-cased message;
"recently I had an example" covers `critical_incidents`; "hello" changes no
flag. -/
theorem update_coverage_exact :
    (∀ msg cov k, update_coverage msg cov k = (cov k || areaHit k msg)) ∧
    update_coverage "recently I had an example".data initCoverage
      CovKey.critical_incidents = true ∧
    (∀ cov k, update_coverage "hello".data cov k = cov k) := by
  have hmain : ∀ msg cov k, update_coverage msg cov k = (cov k || areaHit k msg) := by
    intro msg cov k
    rw [update_coverage_eval]
    congr 1
    cases k <;> simp [checks, areaHit, keywordsOf]
  refine ⟨hmain, ?_, ?_⟩
  · rw [hmain]
    decide
  · intro cov k
    rw [hmain]
    have : areaHit k "hello".data = false := by cases k <;> decide
    rw [this, Bool.or_false]

/-! ### Find and rfind lemmas for the synthesis extraction -/

theorem findIdxC_not_mem {c : Char} {l : List Char} (h : c ∉ l) :
    findIdxC c l = none := by
  induction l with
  | nil => rfl
  | cons a as ih =>
    unfold findIdxC
    have ha : ¬ a = c := fun hc => h (by simp [hc])
    simp [ha, ih (fun hc => h (by simp [hc]))]

theorem findIdxC_mem {c : Char} {l : List Char} (h : c ∈ l) :
    ∃ j, findIdxC c l = some j := by
  induction l with
  | nil => simp at h
  | cons a as ih =>
    unfold findIdxC
    by_cases ha : a = c
    · exact ⟨0, by simp [ha]⟩
    · obtain ⟨j, hj⟩ := ih (by rcases List.mem_cons.mp h with h' | h' <;> simp_all)
      exact ⟨j + 1, by simp [ha, hj]⟩

theorem findIdxC_char {c : Char} {l : List Char} {j : Nat}
    (h : findIdxC c l = some j) : l.get? j = some c := by
  induction l generalizing j with
  | nil => simp [findIdxC] at h
  | cons a as ih =>
    unfold findIdxC at h
    by_cases ha : a = c
    · simp [ha] at h
      simp [← h, ha]
    · simp only [ha, if_false, Option.map_eq_some'] at h
      obtain ⟨j', hj', rfl⟩ := h
      simpa using ih hj'

theorem rfindIdxC_not_mem {c : Char} {l : List Char} (h : c ∉ l) :
    rfindIdxC c l = none := by
  induction l with
  | nil => rfl
  | cons a as ih =>
    unfold rfindIdxC
    rw [ih (fun hc => h (by simp [hc]))]
    have ha : ¬ a = c := fun hc => h (by simp [hc])
    simp [ha]

theorem rfindIdxC_mem {c : Char} {l : List Char} (h : c ∈ l) :
    ∃ j, rfindIdxC c l = some j := by
  induction l with
  | nil => simp at h
  | cons a as ih =>
    unfold rfindIdxC
    cases hr : rfindIdxC c as with
    | some j => exact ⟨j + 1, rfl⟩
    | none =>
      have ha : a = c := by
        rcases List.mem_cons.mp h with h' | h'
        · exact h'.symm
        · obtain ⟨j, hj⟩ := ih h'
          rw [hj] at hr
          cases hr
      exact ⟨0, by simp [ha]⟩

theorem rfindIdxC_char {c : Char} {l : List Char} {j : Nat}
    (h : rfindIdxC c l = some j) : l.get? j = some c := by
  induction l generalizing j with
  | nil => simp [rfindIdxC] at h
  | cons a as ih =>
    unfold rfindIdxC at h
    cases hr : rfindIdxC c as with
    | some j' =>
      rw [hr] at h
      obtain rfl : j' + 1 = j := by simpa using h
      simpa using ih hr
    | none =>
      rw [hr] at h
      by_cases ha : a = c
      · simp [ha] at h
        simp [← h, ha]
      · simp [ha] at h

theorem findIdxC_cons (c a : Char) (as : List Char) :
    findIdxC c (a :: as) =
      if a = c then some 0 else (findIdxC c as).map (· + 1) := rfl

theorem findIdxC_append {c : Char} {pre x : List Char} (h : c ∉ pre) :
    findIdxC c (pre ++ x) = (findIdxC c x).map (· + pre.length) := by
  induction pre with
  | nil => simp
  | cons a pre' ih =>
    have ha : ¬ a = c := fun hc => h (by simp [hc])
    rw [List.cons_append, findIdxC_cons, if_neg ha,
      ih (fun hc => h (by simp [hc])), Option.map_map]
    cases findIdxC c x with
    | none => simp
    | some j =>
      simp only [Option.map_some', Option.some.injEq, Function.comp, List.length_cons]
      omega

theorem findIdxC_head {c : Char} {x : List Char} (h : x.head? = some c) :
    findIdxC c x = some 0 := by
  cases x with
  | nil => simp at h
  | cons a as =>
    obtain rfl : a = c := by simpa using h
    simp [findIdxC]

theorem rfindIdxC_append_right {c : Char} {x y : List Char} {j : Nat}
    (h : rfindIdxC c y = some j) :
    rfindIdxC c (x ++ y) = some (x.length + j) := by
  induction x with
  | nil => simpa using h
  | cons a x' ih =>
    rw [List.cons_append]
    unfold rfindIdxC
    rw [ih]
    simp only [List.length_cons]
    congr 1
    omega

theorem rfindIdxC_cons_not_mem {c : Char} {y : List Char} (h : c ∉ y) :
    rfindIdxC c (c :: y) = some 0 := by
  unfold rfindIdxC
  rw [rfindIdxC_not_mem h]
  simp

theorem gs_extract {text : List Char} {a b : Nat}
    (hf : findIdxC lbrace text = some a)
    (hr : rfindIdxC rbrace text = some (a + b)) :
    generate_synthesis (Except.ok text) =
      (match jsonLoads ((text.take (a + b + 1)).drop a) with
       | some v => SynthResult.ok v
       | none => SynthResult.parseErr) := by
  have hfI : findI lbrace text = (a : Int) := by
    unfold findI
    rw [hf]
  have hrI : rfindI rbrace text = ((a + b : Nat) : Int) := by
    unfold rfindI
    rw [hr]
  show (if findI lbrace text ≥ 0 ∧ rfindI rbrace text + 1 > findI lbrace text then
      match jsonLoads ((text.take (rfindI rbrace text + 1).toNat).drop
          (findI lbrace text).toNat) with
      | some v => SynthResult.ok v
      | none => SynthResult.parseErr
    else SynthResult.noJson text) = _
  rw [hfI, hrI]
  have hcond : ((a : Int) ≥ 0 ∧ ((a + b : Nat) : Int) + 1 > (a : Int)) := by
    constructor
    · exact Int.natCast_nonneg a
    · push_cast
      omega
  rw [if_pos hcond]
  have h1 : (((a + b : Nat) : Int) + 1).toNat = a + b + 1 := by omega
  have h2 : ((a : Int)).toNat = a := by omega
  rw [h1, h2]

/-- Claim C4: generate_synthesis parses the substring between the first left
brace and the last right brace, ignoring surrounding text: prefix text with no
left brace and suffix text with no right brace do not change the result. -/
theorem generate_synthesis_extracts (pre inner post : List Char)
    (h1 : lbrace ∉ pre) (h2 : rbrace ∉ post)
    (h3 : inner.head? = some lbrace) (h4 : inner.getLast? = some rbrace) :
    generate_synthesis (Except.ok (pre ++ inner ++ post)) =
      generate_synthesis (Except.ok inner) := by
  have hne : inner ≠ [] := by
    intro h
    rw [h] at h4
    simp at h4
  obtain ⟨D, hD⟩ : ∃ D, inner = D ++ [rbrace] := by
    refine ⟨inner.dropLast, ?_⟩
    conv_lhs => rw [← List.dropLast_append_getLast hne]
    congr 1
    congr 1
    have := List.getLast?_eq_getLast inner hne
    rw [h4] at this
    exact (Option.some_inj.mp this).symm
  have hlen : inner.length = D.length + 1 := by rw [hD]; simp
  have hfind : findIdxC lbrace (pre ++ inner ++ post) = some pre.length := by
    rw [List.append_assoc, findIdxC_append h1,
      findIdxC_head (show (inner ++ post).head? = some lbrace from by
        cases inner with
        | nil => simp at h3
        | cons a as => simpa using h3)]
    simp
  have hrfind : rfindIdxC rbrace (pre ++ inner ++ post) =
      some (pre.length + (inner.length - 1)) := by
    rw [hD, show pre ++ (D ++ [rbrace]) ++ post = (pre ++ D) ++ (rbrace :: post) from
      by simp, rfindIdxC_append_right (rfindIdxC_cons_not_mem h2)]
    congr 1
    simp only [List.length_append, List.length_singleton]
    omega
  have hfind0 : findIdxC lbrace inner = some 0 := findIdxC_head h3
  have hrfind0 : rfindIdxC rbrace inner = some (0 + (inner.length - 1)) := by
    rw [hD, rfindIdxC_append_right (rfindIdxC_cons_not_mem
      (show rbrace ∉ ([] : List Char) from by simp))]
    congr 1
    simp only [List.length_append, List.length_singleton]
    omega
  rw [gs_extract hfind hrfind, gs_extract hfind0 hrfind0]
  have hslice1 : ((pre ++ inner ++ post).take
      (pre.length + (inner.length - 1) + 1)).drop pre.length = inner := by
    have hsum : pre.length + (inner.length - 1) + 1 = (pre ++ inner).length + 0 := by
      simp only [List.length_append]
      omega
    rw [hsum, List.take_append, List.take_zero, List.append_nil,
      show pre.length = pre.length + 0 from rfl, List.drop_append, List.drop_zero]
  have hslice2 : (inner.take (0 + (inner.length - 1) + 1)).drop 0 = inner := by
    have hsum : 0 + (inner.length - 1) + 1 = inner.length := by omega
    rw [hsum, List.drop_zero, List.take_length]
  rw [hslice1, hslice2]

set_option maxRecDepth 10000 in
/-- Witness for C4: the concrete response of the claim parses to the embedded
document, with the surrounding text ignored. -/
theorem generate_synthesis_extracts_witness :
    generate_synthesis (Except.ok exTxt) = SynthResult.ok exDoc := by
  have hdecomp : exTxt = "Sure! ".data ++ exInner ++ " thanks".data := by decide
  rw [hdecomp, generate_synthesis_extracts "Sure! ".data exInner " thanks".data
    (by decide) (by decide) (by decide) (by decide)]
  rfl

/-- Claim C5: when the response has no brace-delimited region (no left brace,
or the last right brace not strictly after the first left brace), the result
is the no-JSON error record with the raw text preserved verbatim. -/
theorem generate_synthesis_no_region (text : List Char)
    (h : lbrace ∉ text ∨ rfindI rbrace text ≤ findI lbrace text) :
    generate_synthesis (Except.ok text) = SynthResult.noJson text := by
  show (if findI lbrace text ≥ 0 ∧ rfindI rbrace text + 1 > findI lbrace text then
      match jsonLoads ((text.take (rfindI rbrace text + 1).toNat).drop
          (findI lbrace text).toNat) with
      | some v => SynthResult.ok v
      | none => SynthResult.parseErr
    else SynthResult.noJson text) = SynthResult.noJson text
  rw [if_neg]
  rintro ⟨hs, he⟩
  rcases h with h | h
  · have : findI lbrace text = -1 := by
      unfold findI
      rw [findIdxC_not_mem h]
    rw [this] at hs
    omega
  · cases hf : findIdxC lbrace text with
    | none =>
      have : findI lbrace text = -1 := by
        unfold findI
        rw [hf]
      rw [this] at hs
      omega
    | some j =>
      have hfI : findI lbrace text = (j : Int) := by
        unfold findI
        rw [hf]
      cases hr : rfindIdxC rbrace text with
      | none =>
        have hrI : rfindI rbrace text = -1 := by
          unfold rfindI
          rw [hr]
        rw [hrI, hfI] at he
        omega
      | some j' =>
        have hrI : rfindI rbrace text = (j' : Int) := by
          unfold rfindI
          rw [hr]
        rw [hrI, hfI] at he h
        obtain rfl : j' = j := by omega
        have c1 := findIdxC_char hf
        have c2 := rfindIdxC_char hr
        rw [c1] at c2
        have : lbrace = rbrace := by simpa using c2
        exact absurd this (by decide)

/-- Witness for C5 at a braceless response. -/
theorem generate_synthesis_no_region_witness :
    generate_synthesis (Except.ok "no json at all".data) =
      SynthResult.noJson "no json at all".data :=
  generate_synthesis_no_region _ (Or.inl (by decide))

/-! ### The Finish Interview action and the interview loop -/

/-- Claim C3: finishing with fewer than 3 exchanges mutates no session state
(the session stays interviewing, no synthesis result appears); with 3 or more,
exactly one synthesis result is stored and the session transitions to
complete, with the transcript and coverage untouched. -/
theorem finish_interview_gate :
    (∀ st resp, exchangeCount st.messages < 3 → finishInterview resp st = st) ∧
    (∀ st resp, 3 ≤ exchangeCount st.messages →
      (finishInterview resp st).interview_complete = true ∧
      (finishInterview resp st).ksao_result = some (generate_synthesis resp) ∧
      (finishInterview resp st).messages = st.messages ∧
      (finishInterview resp st).coverage = st.coverage) := by
  constructor
  · intro st resp h
    unfold finishInterview
    rw [if_pos h]
  · intro st resp h
    unfold finishInterview
    rw [if_neg (by omega)]
    exact ⟨rfl, rfl, rfl, rfl⟩

/-- Witness for C3: a two-exchange session is left untouched by the finish
action; a three-exchange session becomes complete. -/
theorem finish_interview_gate_witness :
    finishInterview (Except.error "boom".data)
        ⟨[⟨Role.user, "a".data⟩, ⟨Role.user, "b".data⟩], initCoverage, false, none⟩ =
      ⟨[⟨Role.user, "a".data⟩, ⟨Role.user, "b".data⟩], initCoverage, false, none⟩ ∧
    (finishInterview (Except.error "boom".data)
        ⟨[⟨Role.user, "a".data⟩, ⟨Role.user, "b".data⟩, ⟨Role.user, "c".data⟩],
          initCoverage, false, none⟩).interview_complete = true :=
  ⟨finish_interview_gate.1 _ _ (by decide),
    (finish_interview_gate.2 _ _ (by decide)).1⟩

/-- Claim C9: when the generation call raises, `call_llm` returns the literal
error message "Technical issue: " followed by at most the first 50 characters
of the failure description, and the chat turn appends it as the assistant
message while the session continues (completion flag and synthesis result are
untouched); no exception propagates and no retry happens. -/
theorem call_llm_failure_absorbed (e : List Char) (st : SessionState)
    (prompt : List Char) :
    call_llm (Except.error e) = "Technical issue: ".data ++ e.take 50 ∧
    (e.take 50).length ≤ 50 ∧
    (chatTurn st prompt (Except.error e)).messages =
      st.messages ++ [⟨Role.user, prompt⟩,
        ⟨Role.assistant, "Technical issue: ".data ++ e.take 50⟩] ∧
    (chatTurn st prompt (Except.error e)).interview_complete =
      st.interview_complete ∧
    (chatTurn st prompt (Except.error e)).ksao_result = st.ksao_result := by
  refine ⟨rfl, ?_, rfl, rfl, rfl⟩
  rw [List.length_take]
  exact min_le_left _ _

/-! ### The marker loop computes the cut at the earliest marker occurrence -/

theorem step_unfired {t m : List Char} (h : inStr m t = false) :
    stepMarker t m = t := by
  unfold stepMarker
  rw [h]
  simp only [Bool.false_eq_true, if_false]

theorem optMin_assoc (a b c : Option Nat) :
    optMin (optMin a b) c = optMin a (optMin b c) := by
  cases a <;> cases b <;> cases c <;> simp [optMin, Nat.min_assoc]

theorem earliestIn_go (L : List (List Char)) (t : List Char) :
    ∀ acc, L.foldl (fun a m => optMin a (firstPos m t)) acc =
      optMin acc (earliestIn L t) := by
  induction L with
  | nil =>
    intro acc
    cases acc <;> rfl
  | cons m L' ih =>
    intro acc
    rw [List.foldl_cons, ih]
    have h2 : earliestIn (m :: L') t = optMin (firstPos m t) (earliestIn L' t) := by
      unfold earliestIn
      rw [List.foldl_cons]
      exact ih (optMin none (firstPos m t))
    rw [h2, optMin_assoc]

theorem earliestIn_cons (m : List Char) (L : List (List Char)) (t : List Char) :
    earliestIn (m :: L) t = optMin (firstPos m t) (earliestIn L t) := by
  unfold earliestIn
  rw [List.foldl_cons]
  exact earliestIn_go L t (optMin none (firstPos m t))

theorem earliestIn_none {L : List (List Char)} {t : List Char}
    (h : earliestIn L t = none) : ∀ m ∈ L, firstPos m t = none := by
  induction L with
  | nil => simp
  | cons m L' ih =>
    rw [earliestIn_cons] at h
    cases ha : firstPos m t <;> cases hb : earliestIn L' t <;>
      rw [ha, hb] at h <;>
      simp only [optMin] at h
    · intro m' hm'
      rcases List.mem_cons.mp hm' with rfl | h'
      · exact ha
      · exact ih hb m' h'
    · cases h
    · cases h
    · cases h

theorem earliestIn_some {L : List (List Char)} {t : List Char} {p : Nat}
    (h : earliestIn L t = some p) :
    (∃ m ∈ L, firstPos m t = some p) ∧
    (∀ m ∈ L, ∀ j, firstPos m t = some j → p ≤ j) := by
  induction L generalizing p with
  | nil => cases h
  | cons m L' ih =>
    rw [earliestIn_cons] at h
    cases ha : firstPos m t with
    | none =>
      rw [ha] at h
      simp only [optMin] at h
      obtain ⟨⟨m₀, hm₀, hfp₀⟩, hmin⟩ := ih h
      refine ⟨⟨m₀, by simp [hm₀], hfp₀⟩, ?_⟩
      intro m' hm' j hj
      rcases List.mem_cons.mp hm' with rfl | h'
      · rw [ha] at hj; cases hj
      · exact hmin m' h' j hj
    | some x =>
      rw [ha] at h
      cases hb : earliestIn L' t with
      | none =>
        rw [hb] at h
        simp only [optMin, Option.some.injEq] at h
        subst h
        refine ⟨⟨m, by simp, ha⟩, ?_⟩
        intro m' hm' j hj
        rcases List.mem_cons.mp hm' with rfl | h'
        · rw [ha] at hj
          simp at hj
          omega
        · rw [earliestIn_none hb m' h'] at hj
          cases hj
      | some y =>
        rw [hb] at h
        simp only [optMin, Option.some.injEq] at h
        subst h
        obtain ⟨⟨m₀, hm₀, hfp₀⟩, hmin⟩ := ih hb
        constructor
        · rcases Nat.le_total x y with hxy | hxy
          · exact ⟨m, by simp, by rw [ha]; congr 1; omega⟩
          · exact ⟨m₀, by simp [hm₀], by rw [hfp₀]; congr 1; omega⟩
        · intro m' hm' j hj
          rcases List.mem_cons.mp hm' with rfl | h'
          · rw [ha] at hj
            simp at hj
            omega
          · have := hmin m' h' j hj
            omega

theorem occ_lift_strip {x w₁ u w₂ m' : List Char} {q' : Nat}
    (hdec : x = w₁ ++ u ++ w₂) (hne : m' ≠ []) (h : m' <+: u.drop q') :
    m' <+: x.drop (w₁.length + q') := by
  have hq : q' ≤ u.length := by
    by_contra hq
    push_neg at hq
    have hlen : (u.drop q').length = 0 := by
      rw [List.length_drop]
      omega
    rw [List.eq_nil_of_length_eq_zero hlen] at h
    exact hne (List.prefix_nil.mp h)
  rw [hdec, List.append_assoc, List.drop_append,
    List.drop_append_of_le_length hq]
  exact prefExt w₂ h

theorem fold_min_cut :
    ∀ (L : List (List Char)), (∀ m ∈ L, m ≠ [] ∧ noWS m) →
    (∀ m ∈ L, ∀ m' ∈ L, m ≠ m' → ∀ c ∈ m'.drop 1, m.head? ≠ some c) →
    ∀ (t : List Char) (p : Nat),
    (∃ m ∈ L, firstPos m t = some p) →
    (∀ m ∈ L, ∀ q, m <+: t.drop q → p ≤ q) →
    L.foldl stepMarker t = strip (t.take p) := by
  intro L
  induction L with
  | nil =>
    intro _ _ t p hocc _
    obtain ⟨m, hm, -⟩ := hocc
    simp at hm
  | cons m L' ih =>
    intro hgood hpair t p hocc hmin
    obtain ⟨hm_ne, hm_nws⟩ := hgood m (by simp)
    have hgood' : ∀ m' ∈ L', m' ≠ [] ∧ noWS m' :=
      fun m' h' => hgood m' (by simp [h'])
    have hpair' : ∀ m1 ∈ L', ∀ m2 ∈ L', m1 ≠ m2 →
        ∀ c ∈ m2.drop 1, m1.head? ≠ some c :=
      fun m1 h1 m2 h2 hne => hpair m1 (by simp [h1]) m2 (by simp [h2]) hne
    rw [List.foldl_cons]
    cases hfp : firstPos m t with
    | none =>
      have hstep : stepMarker t m = t := step_unfired (by unfold inStr; rw [hfp]; rfl)
      rw [hstep]
      obtain ⟨m₀, hm₀L, hm₀⟩ := hocc
      have hm₀L' : m₀ ∈ L' := by
        rcases List.mem_cons.mp hm₀L with rfl | h'
        · rw [hfp] at hm₀
          cases hm₀
        · exact h'
      exact ih hgood' hpair' t p ⟨m₀, hm₀L', hm₀⟩
        (fun m' h' q hq => hmin m' (by simp [h']) q hq)
    | some p₁ =>
      have hfired : inStr m t = true := by unfold inStr; rw [hfp]; rfl
      have hstep : stepMarker t m = strip (t.take p₁) := by
        rw [step_fired hfired, sB_eq_take hfp]
      rw [hstep]
      have hple : p ≤ p₁ := hmin m (by simp) p₁ (firstPos_occ hfp)
      rcases Nat.eq_or_lt_of_le hple with rfl | hplt
      · apply fold_no_fire
        intro m' hm'
        cases hin : inStr m' (strip (t.take p)) with
        | false => rfl
        | true =>
          exfalso
          obtain ⟨hm'_ne, -⟩ := hgood' m' hm'
          obtain ⟨q', hq'⟩ := infDrop.mp (inStr_iff.mp hin)
          obtain ⟨w₂, hw₂, hdec⟩ := strip_decomp (t.take p)
          have hlift := occ_lift_strip hdec hm'_ne hq'
          have hb := occTakeBound hm'_ne hlift
          have hge := hmin m' (by simp [hm']) _ (occInTake hlift)
          omega
      · obtain ⟨m₀, hm₀L, hm₀⟩ := hocc
        have hne0 : m ≠ m₀ := by
          intro h
          rw [← h, hfp] at hm₀
          have : p₁ = p := by simpa using hm₀
          omega
        have hm₀L' : m₀ ∈ L' := by
          rcases List.mem_cons.mp hm₀L with rfl | h'
          · exact absurd rfl hne0
          · exact h'
        obtain ⟨hm₀_ne, hm₀_nws⟩ := hgood' m₀ hm₀L'
        have hocc0 : m₀ <+: t.drop p := firstPos_occ hm₀
        have hnostrad : p + m₀.length ≤ p₁ := by
          by_contra hcon
          push_neg at hcon
          obtain ⟨r, hr⟩ := hocc0
          have hdr1 : t.drop p₁ = (t.drop p).drop (p₁ - p) := by
            rw [List.drop_drop]
            congr 1
            omega
          have hdr2 : (t.drop p).drop (p₁ - p) = m₀.drop (p₁ - p) ++ r := by
            rw [← hr, List.drop_append_of_le_length (by omega)]
          have hocc1 : m <+: m₀.drop (p₁ - p) ++ r := by
            rw [← hdr2, ← hdr1]
            exact firstPos_occ hfp
          have hd0ne : m₀.drop (p₁ - p) ≠ [] := by
            intro hnil
            have := congrArg List.length hnil
            simp only [List.length_drop, List.length_nil] at this
            omega
          have hh : m.head? = (m₀.drop (p₁ - p)).head? := by
            have h1 := headPref hocc1 hm_ne
            rw [h1]
            cases hdd : m₀.drop (p₁ - p) with
            | nil => exact absurd hdd hd0ne
            | cons a b => simp
          obtain ⟨a, b, hab⟩ := List.exists_cons_of_ne_nil hd0ne
          have hmem : a ∈ m₀.drop 1 := by
            have hs1 : m₀.drop (p₁ - p) <:+ m₀.drop 1 := by
              rw [show m₀.drop (p₁ - p) = (m₀.drop 1).drop (p₁ - p - 1) from by
                rw [List.drop_drop]; congr 1; omega]
              exact List.drop_suffix _ _
            exact List.IsSuffix.mem (by rw [hab]; simp) hs1
          exact hpair m (by simp) m₀ (by simp [hm₀L']) hne0 a hmem
            (by rw [hh, hab]; rfl)
        have hocc_take : m₀ <+: (t.take p₁).drop p := by
          rw [List.drop_take]
          exact prefTake hocc0 (by omega)
        have hfp_take : firstPos m₀ (t.take p₁) = some p := by
          obtain ⟨p₀, hp₀, hle⟩ := firstPos_of_occ hocc_take
          rcases Nat.eq_or_lt_of_le hle with rfl | hlt
          · exact hp₀
          · exact absurd (occInTake (firstPos_occ hp₀))
              (firstPos_min hm₀ p₀ hlt)
        have hfpu := @fpStrip m₀ (t.take p₁) hm₀_ne hm₀_nws
        rw [hfp_take] at hfpu
        cases hfpu' : firstPos m₀ (strip (t.take p₁)) with
        | none =>
          rw [hfpu'] at hfpu
          simp at hfpu
        | some p' =>
          rw [hfpu'] at hfpu
          have hpW : p = p' + ((t.take p₁).takeWhile Char.isWhitespace).length := by
            simpa using hfpu
          obtain ⟨w₂, hw₂, hdec⟩ := strip_decomp (t.take p₁)
          have hminu : ∀ m' ∈ L', ∀ q',
              m' <+: (strip (t.take p₁)).drop q' → p' ≤ q' := by
            intro m' hm' q' hq'
            obtain ⟨hm'_ne, -⟩ := hgood' m' hm'
            have hlift := occ_lift_strip hdec hm'_ne hq'
            have hge := hmin m' (by simp [hm']) _ (occInTake hlift)
            omega
          have hres := ih hgood' hpair' (strip (t.take p₁)) p'
            ⟨m₀, hm₀L', hfpu'⟩ hminu
          rw [hres]
          have hp'le : p' ≤ (strip (t.take p₁)).length := firstPos_le_length hfpu'
          have htake : t.take p = ((t.take p₁).takeWhile Char.isWhitespace) ++
              (strip (t.take p₁)).take p' := by
            have h1 : t.take p = (t.take p₁).take p := by
              rw [List.take_take]
              congr 1
              omega
            rw [h1]
            conv_lhs => rw [hdec]
            rw [List.append_assoc, hpW, Nat.add_comm, List.take_append,
              List.take_append_of_le_length hp'le]
          rw [htake, strip_ws_left (allWS_takeWhile _)]

theorem afterMarkers_eq (t : List Char) : afterMarkers t = markerCut t := by
  unfold markerCut
  cases he : earliestMarker t with
  | none =>
    apply fold_no_fire
    intro m hm
    unfold earliestMarker at he
    unfold inStr
    rw [earliestIn_none he m hm]
    rfl
  | some p =>
    unfold earliestMarker at he
    obtain ⟨hocc, hminJ⟩ := earliestIn_some he
    apply fold_min_cut markers ?_ ?_ t p hocc ?_
    · intro m hm
      fin_cases hm <;> exact ⟨by decide, by unfold noWS; decide⟩
    · intro m hm m' hm' hne
      fin_cases hm <;> fin_cases hm' <;> first
        | exact absurd rfl hne
        | decide
    · intro m hm q hq
      obtain ⟨j, hj, hle⟩ := firstPos_of_occ hq
      have := hminJ m hm j hj
      omega

/-- Counterexample to claim C6 as literally stated: on ".abc" the code leaves
the text alone (the last punctuation mark sits at index 0, and the code only
truncates when the index is positive) while the claim's algorithm truncates to
"."; on "Hi INTERNAL x" the code strips the whitespace left by removing the
marker while the claim's algorithm keeps "Hi ". -/
theorem sanitize_claimC6_counterexample :
    sanitize ".abc".data ≠ sanitizeClaimC6 ".abc".data ∧
    sanitize "Hi INTERNAL x".data ≠ sanitizeClaimC6 "Hi INTERNAL x".data := by
  decide

/-- Claim C6 as amended: the sanitizer truncates at the earliest occurrence of
any of the fixed marker substrings (case-sensitively), stripping surrounding
whitespace when a marker was removed; then, if the result does not end in
terminal punctuation and the last terminal punctuation mark sits at an index
greater than zero, truncates to just after that mark; and if the text is then
empty, returns the generic fallback question. -/
theorem sanitize_eq_amended_spec (t : List Char) : sanitize t = sanitizeC6 t := by
  show (if sentenceTrim (afterMarkers t) = [] then fallback
      else sentenceTrim (afterMarkers t)) =
    (if sentenceTrim (markerCut t) = [] then fallback
      else sentenceTrim (markerCut t))
  rw [afterMarkers_eq]

end App
